import Mathlib

/-!
Verification of the registry component of the kmip-go TTLV package
(`ttlv/registry.go`).  Go maps are embedded as association lists with
update-in-place insertion (`mapPut`) and first-match lookup (`mapGet`);
since insertion keeps keys unique, this matches Go map semantics
(last write wins, unspecified iteration order is only observed through
an explicit sort).  `uint32` values carry no arithmetic here, so they
are embedded as `Nat`.  A Go `*Enum` (possibly nil) is `Option Enum`.
-/

/-- Lookup in an association list, as Go map indexing: `none` models the
absence of the key (Go returns the zero value together with `ok=false`). -/
def mapGet {K V : Type} [DecidableEq K] : List (K × V) → K → Option V
  | [], _ => none
  | (k', v) :: rest, k => if k = k' then some v else mapGet rest k

/-- Insertion into an association list, as Go map assignment `m[k] = v`:
overwrites the binding of `k` in place, or appends a fresh binding. -/
def mapPut {K V : Type} [DecidableEq K] : List (K × V) → K → V → List (K × V)
  | [], k, v => [(k, v)]
  | (k', v') :: rest, k, v =>
      if k = k' then (k, v) :: rest else (k', v') :: mapPut rest k v

/-- Modelled from the spec: `kmiputil.NormalizeName` is not under `src/`;
per spec §3 the normalized name keeps letters, digits and underscore and
removes whitespace and other punctuation (KMIP §5.4.1.1). -/
def NormalizeName (s : String) : String :=
  String.mk (s.toList.filter (fun c => c.isAlphanum || c = '_'))

/-- Hex digit test over `Char`, used by the modelled hex parsing. -/
def isHexDigit (c : Char) : Bool :=
  decide (48 ≤ c.toNat ∧ c.toNat ≤ 57) ||
  decide (97 ≤ c.toNat ∧ c.toNat ≤ 102) ||
  decide (65 ≤ c.toNat ∧ c.toNat ≤ 70)

/-- Numeric value of one hex digit (0 for non-digits, never reached on
validated input). -/
def hexDigitVal (c : Char) : Nat :=
  if 48 ≤ c.toNat ∧ c.toNat ≤ 57 then c.toNat - 48
  else if 97 ≤ c.toNat ∧ c.toNat ≤ 102 then c.toNat - 87
  else if 65 ≤ c.toNat ∧ c.toNat ≤ 70 then c.toNat - 55
  else 0

/-- Value of a big-endian string of hex digits. -/
def hexToNat (ds : List Char) : Nat :=
  ds.foldl (fun acc c => acc * 16 + hexDigitVal c) 0

/-- Lower-case hex digit character for `d < 16`. -/
def hexDigitChar (d : Nat) : Char :=
  if d < 10 then Char.ofNat (48 + d) else Char.ofNat (87 + d)

/-- The `k` low-order hex digits of `n`, most significant first
(the `%0kx` format used by tag formatting). -/
def toHexDigits (n : Nat) : Nat → List Char
  | 0 => []
  | k + 1 => toHexDigits (n / 16) k ++ [hexDigitChar (n % 16)]

/-- The strings `"0xds"` are recognized by their first two characters;
returns the characters after the `0x` prefix. -/
def hexTail : List Char → Option (List Char)
  | '0' :: 'x' :: ds => some ds
  | _ => none

/-- Splitting a character list on `'|'`, modelling `strings.Split` for the
bitmask form `"Name1|Name2|0x00000004"` of spec §4.A. -/
def splitBar : List Char → List (List Char)
  | [] => [[]]
  | c :: rest =>
      if c = '|' then [] :: splitBar rest
      else
        match splitBar rest with
        | h :: t => (c :: h) :: t
        | [] => [[c]]

/-- The name components of an enum string in bitmask form. -/
def enumParts (s : String) : List String :=
  (splitBar s.toList).map (fun l => String.mk l)

/-- `ttlv.Enum` (registry.go): four maps tying uint32 values to canonical
and normalized names, plus the bitmask flag. -/
structure Enum where
  valuesToName : List (Nat × String)
  valuesToCanonicalName : List (Nat × String)
  nameToValue : List (String × Nat)
  canonicalNamesToValue : List (String × Nat)
  bitMask : Bool
deriving DecidableEq

/-- `ttlv.NewEnum`. -/
def NewEnum : Enum := ⟨[], [], [], [], false⟩

/-- `ttlv.NewBitmask`. -/
def NewBitmask : Enum := ⟨[], [], [], [], true⟩

/-- The zero `Enum` with a chosen bitmask flag (`NewEnum` / `NewBitmask`). -/
def emptyWith (b : Bool) : Enum := ⟨[], [], [], [], b⟩

/-- `Enum.RegisterValue` (registry.go:73): store the value under both the
normalized and the canonical name, in all four maps.  (The nil-map
initialization in the Go code is invisible here: reads of a nil Go map
behave as reads of an empty one.) -/
def Enum.RegisterValue (e : Enum) (v : Nat) (name : String) : Enum :=
  let nn := NormalizeName name
  { e with
    valuesToName := mapPut e.valuesToName v nn
    nameToValue := mapPut e.nameToValue nn v
    valuesToCanonicalName := mapPut e.valuesToCanonicalName v name
    canonicalNamesToValue := mapPut e.canonicalNamesToValue name v }

/-- `Enum.Name` (registry.go:87); the receiver is `Option Enum` because the
Go method tolerates a nil `*Enum`. -/
def Enum.Name (e : Option Enum) (v : Nat) : String × Bool :=
  match e with
  | none => ("", false)
  | some e =>
      match mapGet e.valuesToName v with
      | some n => (n, true)
      | none => ("", false)

/-- `Enum.CanonicalName` (registry.go:95). -/
def Enum.CanonicalName (e : Option Enum) (v : Nat) : String × Bool :=
  match e with
  | none => ("", false)
  | some e =>
      match mapGet e.valuesToCanonicalName v with
      | some n => (n, true)
      | none => ("", false)

/-- `Enum.Value` (registry.go:103): normalized-name map first, canonical
map second, `(0, false)` when both miss. -/
def Enum.Value (e : Option Enum) (name : String) : Nat × Bool :=
  match e with
  | none => (0, false)
  | some e =>
      match mapGet e.nameToValue name with
      | some v => (v, true)
      | none =>
          match mapGet e.canonicalNamesToValue name with
          | some v => (v, true)
          | none => (0, false)

/-- Insertion of a value into a `≤`-sorted list of naturals. -/
def insertSorted (x : Nat) : List Nat → List Nat
  | [] => [x]
  | y :: ys => if x ≤ y then x :: y :: ys else y :: insertSorted x ys

/-- Sorting a list of naturals in increasing order, modelling
`sort.Sort(uint32Slice(values))` (registry.go:224). -/
def sortNats (l : List Nat) : List Nat := l.foldr insertSorted []

/-- `Enum.Values` (registry.go:114): the keys of `valuesToName`, sorted
increasingly.  (Go map iteration order is unspecified but the subsequent
sort makes the result order-independent.)  The Go method has no nil
check, so the receiver is a plain `Enum`. -/
def Enum.Values (e : Enum) : List Nat :=
  sortNats (e.valuesToName.map Prod.fst)

/-- `Enum.Bitmask` (registry.go:124), nil receiver allowed. -/
def Enum.Bitmask (e : Option Enum) : Bool :=
  match e with
  | none => false
  | some e => e.bitMask

/-- A registered `EnumMap` value: the interface in Go, here the `*Enum`
it holds, `none` being a nil `*Enum` stored in a non-nil interface. -/
abbrev EnumMap := Option Enum

/-- `ttlv.Registry` (registry.go:134). -/
structure Registry where
  enums : List (Nat × EnumMap)
  tags : Enum
  types : Enum

/-- The zero `Registry` value. -/
def emptyRegistry : Registry := ⟨[], emptyWith false, emptyWith false⟩

/-- `Registry.RegisterType` (registry.go:140). -/
def Registry.RegisterType (r : Registry) (t : Nat) (name : String) : Registry :=
  { r with types := r.types.RegisterValue t name }

/-- `Registry.RegisterTag` (registry.go:144). -/
def Registry.RegisterTag (r : Registry) (t : Nat) (name : String) : Registry :=
  { r with tags := r.tags.RegisterValue t name }

/-- `Registry.RegisterEnum` (registry.go:148). -/
def Registry.RegisterEnum (r : Registry) (t : Nat) (d : EnumMap) : Registry :=
  { r with enums := mapPut r.enums t d }

/-- `Registry.EnumForTag` (registry.go:157); the outer `Option` is the nil
interface returned when no map is registered for the tag. -/
def Registry.EnumForTag (r : Registry) (t : Nat) : Option EnumMap :=
  mapGet r.enums t

/-- `Registry.IsBitmask` (registry.go:164): `e != nil` is the outer
`Option`; a registered nil `*Enum` still reaches `Bitmask`. -/
def Registry.IsBitmask (r : Registry) (t : Nat) : Bool :=
  match r.EnumForTag t with
  | some e => Enum.Bitmask e
  | none => false

/-- `Registry.IsEnum` (registry.go:171). -/
def Registry.IsEnum (r : Registry) (t : Nat) : Bool :=
  match r.EnumForTag t with
  | some e => !(Enum.Bitmask e)
  | none => false

/-- `ttlv.TagNone`, the zero tag, reserved as unknown/absent. -/
def TagNone : Nat := 0

/-- The error values `ErrInvalidHexString` and `ErrUnregisteredEnumName`
surfaced by the parsing entry points (registry.go:22-23). -/
inductive KErr where
  | invalidHexString
  | unregisteredEnumName
deriving DecidableEq

instance {ε α : Type} [DecidableEq ε] [DecidableEq α] : DecidableEq (Except ε α) := fun a b =>
  match a, b with
  | Except.ok x, Except.ok y =>
      if h : x = y then isTrue (by rw [h]) else
        isFalse (fun hc => h (by cases hc; rfl))
  | Except.error x, Except.error y =>
      if h : x = y then isTrue (by rw [h]) else
        isFalse (fun hc => h (by cases hc; rfl))
  | Except.ok _, Except.error _ => isFalse (fun hc => by cases hc)
  | Except.error _, Except.ok _ => isFalse (fun hc => by cases hc)

/-- Modelled from the spec: the free function `ttlv.FormatTag` is not under
`src/`; per spec §4.A it returns the canonical name when one is
registered, else `"0x"` + 6 hex digits. -/
def FormatTagF (v : Nat) (e : Option Enum) : String :=
  match Enum.CanonicalName e v with
  | (n, true) => n
  | (_, false) => String.mk ('0' :: 'x' :: toHexDigits v 6)

/-- Modelled from the spec: the free function `ttlv.ParseTag` is not under
`src/`; per spec §4.A it accepts a canonical name, a normalized name, or
`"0x"` + 6 hex digits, fails with the malformed-hex error when the hex
form has the wrong length or a non-hex digit, and returns `TagNone` for
unknown strings that are not hex. -/
def ParseTagF (s : String) (e : Option Enum) : Except KErr Nat :=
  match hexTail s.toList with
  | some ds =>
      if ds.length = 6 && ds.all isHexDigit then Except.ok (hexToNat ds)
      else Except.error KErr.invalidHexString
  | none =>
      match Enum.Value e s with
      | (v, true) => Except.ok v
      | (_, false) => Except.ok TagNone

/-- Modelled from the spec: one component of an enum string; hex form
(`"0x"` + 8 hex digits, the `0xHHHHHHHH` of spec §4.A) or a registered
name, else the unregistered-enum-name error. -/
def parseEnumComponent (e : Option Enum) (c : String) : Except KErr Nat :=
  match hexTail c.toList with
  | some ds =>
      if ds.length = 8 && ds.all isHexDigit then Except.ok (hexToNat ds)
      else Except.error KErr.invalidHexString
  | none =>
      match Enum.Value e c with
      | (v, true) => Except.ok v
      | (_, false) => Except.error KErr.unregisteredEnumName

/-- Bitwise-OR of the parsed components, stopping at the first failing
component. -/
def orComponents (e : Option Enum) : Nat → List String → Except KErr Nat
  | acc, [] => Except.ok acc
  | acc, c :: cs =>
      match parseEnumComponent e c with
      | Except.ok v => orComponents e (acc ||| v) cs
      | Except.error err => Except.error err

/-- Modelled from the spec: the free function `ttlv.ParseEnum` is not under
`src/`; per spec §4.A it inverts `FormatEnum`: for a bitmask map the
string is `'|'`-separated components OR-ed together, otherwise a single
component. -/
def ParseEnumF (s : String) (e : Option Enum) : Except KErr Nat :=
  if Enum.Bitmask e then orComponents e 0 (enumParts s)
  else parseEnumComponent e s

/-- `Registry.FormatTag` (registry.go:194). -/
def Registry.FormatTag (r : Registry) (t : Nat) : String :=
  FormatTagF t (some r.tags)

/-- `Registry.ParseTag` (registry.go:216). -/
def Registry.ParseTag (r : Registry) (s : String) : Except KErr Nat :=
  ParseTagF s (some r.tags)

/-- `Registry.ParseEnum` (registry.go:206): the free function receives the
interface returned by `EnumForTag`; a nil interface and a nil `*Enum`
behave alike inside name lookups, so they are joined here. -/
def Registry.ParseEnum (r : Registry) (t : Nat) (s : String) : Except KErr Nat :=
  ParseEnumF s ((r.EnumForTag t).join)

/-- Registering a whole table of values, the shape every generated
registration file has: a fold of `RegisterValue` from a fresh `Enum`. -/
def registerAll (e : Enum) (l : List (Nat × String)) : Enum :=
  l.foldl (fun e p => e.RegisterValue p.1 p.2) e

/-! ### Association-list map lemmas -/

theorem mapGet_mapPut_self {K V : Type} [DecidableEq K] (m : List (K × V)) (k : K) (v : V) :
    mapGet (mapPut m k v) k = some v := by
  induction m with
  | nil => simp [mapPut, mapGet]
  | cons p rest ih =>
      by_cases h : k = p.1
      · simp [mapPut, h, mapGet]
      · simp [mapPut, h, mapGet, ih]

theorem mapGet_mapPut_ne {K V : Type} [DecidableEq K] (m : List (K × V)) (k k' : K) (v : V)
    (h : k' ≠ k) : mapGet (mapPut m k v) k' = mapGet m k' := by
  induction m with
  | nil => simp [mapPut, mapGet, h]
  | cons p rest ih =>
      by_cases hk : k = p.1
      · subst hk; simp [mapPut, mapGet, h, ih]
      · by_cases hk' : k' = p.1
        · simp [mapPut, hk, mapGet, hk']
        · simp [mapPut, hk, mapGet, hk', ih]

theorem mem_keys_mapPut {K V : Type} [DecidableEq K] (m : List (K × V)) (k a : K) (v : V) :
    a ∈ (mapPut m k v).map Prod.fst ↔ a = k ∨ a ∈ m.map Prod.fst := by
  induction m with
  | nil => simp [mapPut]
  | cons p rest ih =>
      by_cases hk : k = p.1
      · subst hk; simp [mapPut]
      · simp [mapPut, hk, ih]; tauto

theorem nodup_keys_mapPut {K V : Type} [DecidableEq K] (m : List (K × V)) (k : K) (v : V)
    (h : (m.map Prod.fst).Nodup) : ((mapPut m k v).map Prod.fst).Nodup := by
  induction m with
  | nil => simp [mapPut]
  | cons p rest ih =>
      simp only [List.map_cons, List.nodup_cons] at h
      by_cases hk : k = p.1
      · subst hk
        simpa [mapPut, List.nodup_cons] using h
      · simp only [mapPut, hk, if_false, List.map_cons, List.nodup_cons]
        refine ⟨?_, ih h.2⟩
        rw [mem_keys_mapPut]
        rintro (rfl | hmem)
        · exact hk rfl
        · exact h.1 hmem

theorem mapGet_eq_none_of_not_mem {K V : Type} [DecidableEq K] (m : List (K × V)) (a : K)
    (h : a ∉ m.map Prod.fst) : mapGet m a = none := by
  induction m with
  | nil => rfl
  | cons p rest ih =>
      simp only [List.map_cons, List.mem_cons] at h
      push_neg at h
      simp [mapGet, h.1, ih h.2]

theorem mem_keys_of_mapGet {K V : Type} [DecidableEq K] (m : List (K × V)) (a : K) (v : V)
    (h : mapGet m a = some v) : a ∈ m.map Prod.fst := by
  induction m with
  | nil => simp [mapGet] at h
  | cons p rest ih =>
      by_cases hk : a = p.1
      · simp [hk]
      · simp only [mapGet, hk, if_false] at h
        simp [ih h]

/-! ### Sorting lemmas -/

theorem perm_insertSorted (x : Nat) (l : List Nat) : (insertSorted x l).Perm (x :: l) := by
  induction l with
  | nil => exact List.Perm.refl _
  | cons y ys ih =>
      by_cases h : x ≤ y
      · simp [insertSorted, h]
      · simp only [insertSorted, h, if_false]
        exact ((ih.cons y).trans (List.Perm.swap x y ys))

theorem mem_insertSorted (x a : Nat) (l : List Nat) :
    a ∈ insertSorted x l ↔ a = x ∨ a ∈ l := by
  rw [(perm_insertSorted x l).mem_iff]; simp

theorem sorted_insertSorted (x : Nat) (l : List Nat) (h : l.Pairwise (· ≤ ·)) :
    (insertSorted x l).Pairwise (· ≤ ·) := by
  induction l with
  | nil => simp [insertSorted]
  | cons y ys ih =>
      rw [List.pairwise_cons] at h
      by_cases hxy : x ≤ y
      · simp only [insertSorted, if_pos hxy]
        refine List.pairwise_cons.mpr ⟨?_, List.pairwise_cons.mpr h⟩
        intro b hb
        rcases List.mem_cons.mp hb with rfl | hb
        · exact hxy
        · exact le_trans hxy (h.1 b hb)
      · simp only [insertSorted, if_neg hxy]
        refine List.pairwise_cons.mpr ⟨?_, ih h.2⟩
        intro b hb
        rcases (mem_insertSorted x b ys).mp hb with rfl | hb
        · exact le_of_lt (lt_of_not_le hxy)
        · exact h.1 b hb

theorem perm_sortNats (l : List Nat) : (sortNats l).Perm l := by
  induction l with
  | nil => exact List.Perm.refl _
  | cons x xs ih => exact (perm_insertSorted x (sortNats xs)).trans (ih.cons x)

theorem sorted_sortNats (l : List Nat) : (sortNats l).Pairwise (· ≤ ·) := by
  induction l with
  | nil => simp [sortNats]
  | cons x xs ih => exact sorted_insertSorted x (sortNats xs) ih

/-! ### Hex formatting lemmas -/

theorem hexVal_hexChar : ∀ d, d < 16 → hexDigitVal (hexDigitChar d) = d := by decide

theorem isHex_hexChar : ∀ d, d < 16 → isHexDigit (hexDigitChar d) = true := by decide

theorem length_toHexDigits (k : Nat) : ∀ n, (toHexDigits n k).length = k := by
  induction k with
  | zero => intro n; rfl
  | succ k ih => intro n; simp [toHexDigits, ih]

theorem mem_toHexDigits_isHex (k : Nat) :
    ∀ n c, c ∈ toHexDigits n k → isHexDigit c = true := by
  induction k with
  | zero => intro n c hc; simp [toHexDigits] at hc
  | succ k ih =>
      intro n c hc
      simp only [toHexDigits, List.mem_append, List.mem_singleton] at hc
      rcases hc with hc | rfl
      · exact ih _ _ hc
      · exact isHex_hexChar _ (Nat.mod_lt _ (by omega))

theorem hexToNat_append_digit (l : List Char) (c : Char) :
    hexToNat (l ++ [c]) = hexToNat l * 16 + hexDigitVal c := by
  simp [hexToNat, List.foldl_append]

theorem hexToNat_toHexDigits (k : Nat) : ∀ n, n < 16 ^ k → hexToNat (toHexDigits n k) = n := by
  induction k with
  | zero =>
      intro n hn
      interval_cases n
      rfl
  | succ k ih =>
      intro n hn
      have hdiv : n / 16 < 16 ^ k := by
        rw [pow_succ] at hn
        omega
      simp only [toHexDigits, hexToNat_append_digit, ih _ hdiv,
        hexVal_hexChar _ (Nat.mod_lt _ (by omega))]
      omega

/-! ### Name normalization lemmas -/

theorem toList_mk (l : List Char) : (String.mk l).toList = l := rfl

theorem filter_idem (p : Char → Bool) (l : List Char) :
    (l.filter p).filter p = l.filter p := by
  induction l with
  | nil => rfl
  | cons c cs ih => by_cases h : p c <;> simp [List.filter_cons, h, ih]

theorem normalizeName_fixed (s : String) :
    NormalizeName (NormalizeName s) = NormalizeName s := by
  simp only [NormalizeName, toList_mk, filter_idem]

/-! ### Registration-fold lemmas -/

theorem registerAll_cons (e : Enum) (p : Nat × String) (l : List (Nat × String)) :
    registerAll e (p :: l) = registerAll (e.RegisterValue p.1 p.2) l := rfl

/-- Coupling of the two value-indexed maps: whatever canonical name is
stored for a value, the stored normalized name is its normalization
(the heart of claim C2). -/
def nameCoupled (e : Enum) : Prop :=
  ∀ v n, mapGet e.valuesToCanonicalName v = some n →
    mapGet e.valuesToName v = some (NormalizeName n)

theorem nameCoupled_registerValue (e : Enum) (v : Nat) (name : String)
    (h : nameCoupled e) : nameCoupled (e.RegisterValue v name) := by
  intro w n hw
  simp only [Enum.RegisterValue] at hw ⊢
  by_cases hv : w = v
  · subst hv
    rw [mapGet_mapPut_self] at hw
    cases hw
    rw [mapGet_mapPut_self]
  · rw [mapGet_mapPut_ne _ _ _ _ hv] at hw
    rw [mapGet_mapPut_ne _ _ _ _ hv]
    exact h w n hw

theorem nameCoupled_registerAll : ∀ (l : List (Nat × String)) (e : Enum),
    nameCoupled e → nameCoupled (registerAll e l) := by
  intro l
  induction l with
  | nil => intro e h; exact h
  | cons p ps ih => intro e h; exact ih _ (nameCoupled_registerValue e p.1 p.2 h)

/-- All keys of the normalized-name index are normalization fixed points. -/
def normKeys (e : Enum) : Prop :=
  ∀ k v, mapGet e.nameToValue k = some v → NormalizeName k = k

theorem normKeys_registerValue (e : Enum) (v : Nat) (name : String)
    (h : normKeys e) : normKeys (e.RegisterValue v name) := by
  intro k w hk
  simp only [Enum.RegisterValue] at hk
  by_cases hkn : k = NormalizeName name
  · subst hkn
    exact normalizeName_fixed name
  · rw [mapGet_mapPut_ne _ _ _ _ hkn] at hk
    exact h k w hk

theorem normKeys_registerAll : ∀ (l : List (Nat × String)) (e : Enum),
    normKeys e → normKeys (registerAll e l) := by
  intro l
  induction l with
  | nil => intro e h; exact h
  | cons p ps ih => intro e h; exact ih _ (normKeys_registerValue e p.1 p.2 h)

theorem fresh_name_lookup : ∀ (l : List (Nat × String)) (e : Enum) (s : String),
    (∀ p ∈ l, s ≠ p.2 ∧ s ≠ NormalizeName p.2) →
    mapGet (registerAll e l).nameToValue s = mapGet e.nameToValue s ∧
    mapGet (registerAll e l).canonicalNamesToValue s = mapGet e.canonicalNamesToValue s := by
  intro l
  induction l with
  | nil => intro e s _; exact ⟨rfl, rfl⟩
  | cons p ps ih =>
      intro e s hs
      have hp := hs p (List.mem_cons_self p ps)
      have hrest : ∀ q ∈ ps, s ≠ q.2 ∧ s ≠ NormalizeName q.2 :=
        fun q hq => hs q (List.mem_cons_of_mem p hq)
      rw [registerAll_cons]
      rcases ih (e.RegisterValue p.1 p.2) s hrest with ⟨h1, h2⟩
      refine ⟨?_, ?_⟩
      · rw [h1]
        simp only [Enum.RegisterValue]
        exact mapGet_mapPut_ne _ _ _ _ hp.2
      · rw [h2]
        simp only [Enum.RegisterValue]
        exact mapGet_mapPut_ne _ _ _ _ hp.1

theorem mem_keys_registerAll : ∀ (l : List (Nat × String)) (e : Enum) (v : Nat),
    v ∈ ((registerAll e l).valuesToName.map Prod.fst) ↔
      v ∈ (e.valuesToName.map Prod.fst) ∨ v ∈ l.map Prod.fst := by
  intro l
  induction l with
  | nil => intro e v; simp [registerAll]
  | cons p ps ih =>
      intro e v
      rw [registerAll_cons, ih]
      simp only [Enum.RegisterValue]
      rw [mem_keys_mapPut]
      simp only [List.map_cons, List.mem_cons]
      tauto

theorem nodup_keys_registerAll : ∀ (l : List (Nat × String)) (e : Enum),
    (e.valuesToName.map Prod.fst).Nodup →
    ((registerAll e l).valuesToName.map Prod.fst).Nodup := by
  intro l
  induction l with
  | nil => intro e h; exact h
  | cons p ps ih =>
      intro e h
      rw [registerAll_cons]
      exact ih _ (by simpa only [Enum.RegisterValue] using nodup_keys_mapPut _ _ _ h)

/-! ### Claim theorems -/

/-- C7: registration is last-writer-wins: after `RegisterEnum(t, m1)` then
`RegisterEnum(t, m2)`, `EnumForTag(t)` returns `m2`; after
`RegisterValue(v, n1)` then `RegisterValue(v, n2)`, `Name(v)` returns the
normalization of `n2` and `CanonicalName(v)` returns `n2`. -/
theorem registration_last_writer_wins :
    (∀ (r : Registry) (t : Nat) (m1 m2 : EnumMap),
        Registry.EnumForTag ((r.RegisterEnum t m1).RegisterEnum t m2) t = some m2)
    ∧ (∀ (e : Enum) (v : Nat) (n1 n2 : String),
        Enum.Name (some ((e.RegisterValue v n1).RegisterValue v n2)) v
          = (NormalizeName n2, true)
        ∧ Enum.CanonicalName (some ((e.RegisterValue v n1).RegisterValue v n2)) v
          = (n2, true)) := by
  refine ⟨?_, ?_⟩
  · intro r t m1 m2
    simp [Registry.EnumForTag, Registry.RegisterEnum, mapGet_mapPut_self]
  · intro e v n1 n2
    constructor
    · simp [Enum.Name, Enum.RegisterValue, mapGet_mapPut_self]
    · simp [Enum.CanonicalName, Enum.RegisterValue, mapGet_mapPut_self]

/-- C8: read operations are total on nil receivers and empty registries:
a nil `*Enum` yields `("", false)` from `Name`/`CanonicalName`,
`(0, false)` from `Value` and `false` from `Bitmask`; a registry with no
registered enums yields `nil` from `EnumForTag` and `false` from
`IsBitmask`/`IsEnum` at every tag. -/
theorem nil_receiver_totality :
    (∀ v : Nat, Enum.Name none v = ("", false))
    ∧ (∀ v : Nat, Enum.CanonicalName none v = ("", false))
    ∧ (∀ s : String, Enum.Value none s = (0, false))
    ∧ Enum.Bitmask none = false
    ∧ (∀ (tg ty : Enum) (t : Nat),
        Registry.EnumForTag ⟨[], tg, ty⟩ t = none
        ∧ Registry.IsBitmask ⟨[], tg, ty⟩ t = false
        ∧ Registry.IsEnum ⟨[], tg, ty⟩ t = false) := by
  refine ⟨fun _ => rfl, fun _ => rfl, fun _ => rfl, rfl, fun tg ty t => ⟨rfl, rfl, rfl⟩⟩

/-- C10: for every registry state, `IsBitmask` and `IsEnum` are never both
true, and their disjunction holds exactly when an `EnumMap` is registered
for the tag (every sequence of `Register*` calls produces such a state,
so the invariant is preserved by all of them). -/
theorem isBitmask_isEnum_invariant (r : Registry) (t : Nat) :
    ((r.IsBitmask t && r.IsEnum t) = false)
    ∧ ((r.IsBitmask t || r.IsEnum t) = (r.EnumForTag t).isSome) := by
  unfold Registry.IsBitmask Registry.IsEnum
  cases h : r.EnumForTag t with
  | none => simp
  | some em => cases hb : Enum.Bitmask em <;> simp [hb]

/-- C2: for every enum value registered via `RegisterValue`, the stored
normalized name is the normalization of the stored canonical name:
`NormalizeName(CanonicalName(v)) = Name(v)`. -/
theorem normalizeName_canonicalName (b : Bool) (l : List (Nat × String)) (v : Nat) (n : String)
    (h : Enum.CanonicalName (some (registerAll (emptyWith b) l)) v = (n, true)) :
    Enum.Name (some (registerAll (emptyWith b) l)) v = (NormalizeName n, true) := by
  have hc : nameCoupled (registerAll (emptyWith b) l) :=
    nameCoupled_registerAll l _ (by intro w m hw; simp [emptyWith, mapGet] at hw)
  have hm : mapGet (registerAll (emptyWith b) l).valuesToCanonicalName v = some n := by
    unfold Enum.CanonicalName at h
    cases hmg : mapGet (registerAll (emptyWith b) l).valuesToCanonicalName v with
    | none => simp [hmg] at h
    | some n' =>
        simp only [hmg] at h
        rw [Prod.mk.injEq] at h
        rw [h.1]
  simp [Enum.Name, hc v n hm]

/-- C2 witness at a concrete registration. -/
theorem normalizeName_canonicalName_witness :
    Enum.Name (some (registerAll (emptyWith false) [(1, "A B")])) 1
      = (NormalizeName "A B", true) :=
  normalizeName_canonicalName false [(1, "A B")] 1 "A B" (by decide)

/-- C9: `Values()` returns exactly the set of values passed to
`RegisterValue`, with no duplicates, sorted strictly increasingly. -/
theorem values_sorted_nodup (b : Bool) (l : List (Nat × String)) :
    (∀ v, v ∈ Enum.Values (registerAll (emptyWith b) l) ↔ v ∈ l.map Prod.fst)
    ∧ (Enum.Values (registerAll (emptyWith b) l)).Pairwise (· < ·)
    ∧ (Enum.Values (registerAll (emptyWith b) l)).Nodup := by
  have hnodup : ((registerAll (emptyWith b) l).valuesToName.map Prod.fst).Nodup :=
    nodup_keys_registerAll l _ (by simp [emptyWith])
  have hperm := perm_sortNats ((registerAll (emptyWith b) l).valuesToName.map Prod.fst)
  have hnd : (Enum.Values (registerAll (emptyWith b) l)).Nodup := by
    unfold Enum.Values
    exact hperm.nodup_iff.mpr hnodup
  refine ⟨?_, ?_, hnd⟩
  · intro v
    unfold Enum.Values
    rw [hperm.mem_iff, mem_keys_registerAll l (emptyWith b) v]
    simp [emptyWith]
  · have hle := sorted_sortNats ((registerAll (emptyWith b) l).valuesToName.map Prod.fst)
    exact List.Sorted.lt_of_le hle hnd

/-- C9 witness at a concrete registration list with a duplicate value. -/
theorem values_sorted_nodup_witness :
    3 ∈ Enum.Values (registerAll (emptyWith false) [(3, "A"), (1, "B"), (3, "C")]) :=
  ((values_sorted_nodup false [(3, "A"), (1, "B"), (3, "C")]).1 3).mpr (by decide)

/-- C4: `ParseTag` fails with the malformed-hex error exactly when the
string begins with `"0x"` but has the wrong length or a non-hex digit;
a string that is not hex-formed and matches no registered name yields
`TagNone` without error; and no other error is ever produced. -/
theorem parseTag_error_behavior (r : Registry) (s : String) :
    (∀ ds, hexTail s.toList = some ds →
       (Registry.ParseTag r s = Except.error KErr.invalidHexString ↔
         ¬(ds.length = 6 ∧ ds.all isHexDigit = true)))
    ∧ (hexTail s.toList = none → (Enum.Value (some r.tags) s).2 = false →
        Registry.ParseTag r s = Except.ok TagNone)
    ∧ (∀ err, Registry.ParseTag r s = Except.error err →
        err = KErr.invalidHexString ∧ hexTail s.toList ≠ none) := by
  refine ⟨?_, ?_, ?_⟩
  · intro ds hds
    simp only [Registry.ParseTag, ParseTagF, hds]
    by_cases hc : (decide (ds.length = 6) && ds.all isHexDigit) = true
    · rw [if_pos hc]
      simp only [Bool.and_eq_true, decide_eq_true_eq] at hc
      exact iff_of_false (by simp) (not_not_intro hc)
    · rw [if_neg hc]
      simp only [Bool.and_eq_true, decide_eq_true_eq] at hc
      exact iff_of_true rfl hc
  · intro hnone hval
    simp only [Registry.ParseTag, ParseTagF, hnone]
    cases hv : Enum.Value (some r.tags) s with
    | mk v bb =>
        rw [hv] at hval
        simp only at hval
        subst hval
        simp
  · intro err herr
    simp only [Registry.ParseTag, ParseTagF] at herr
    cases hht : hexTail s.toList with
    | none =>
        rw [hht] at herr
        simp only at herr
        cases hv : Enum.Value (some r.tags) s with
        | mk v bb =>
            rw [hv] at herr
            cases bb <;> simp at herr
    | some ds =>
        rw [hht] at herr
        simp only at herr
        refine ⟨?_, by simp [hht]⟩
        by_cases hc : (decide (ds.length = 6) && ds.all isHexDigit) = true
        · rw [if_pos hc] at herr
          simp at herr
        · rw [if_neg hc] at herr
          cases herr
          rfl

/-- C4 witness: a malformed hex tag string and an unknown plain name. -/
theorem parseTag_error_behavior_witness :
    Registry.ParseTag emptyRegistry "0x12345" = Except.error KErr.invalidHexString
    ∧ Registry.ParseTag emptyRegistry "NotATag" = Except.ok TagNone :=
  ⟨((parseTag_error_behavior emptyRegistry "0x12345").1
      ['1', '2', '3', '4', '5'] (by decide)).mpr (by decide),
   (parseTag_error_behavior emptyRegistry "NotATag").2.1 (by decide) (by decide)⟩

/-- C5: for a 24-bit tag, `FormatTag` returns the registered canonical
name when there is one, and otherwise `"0x"` followed by exactly the six
hex digits whose value is the tag. -/
theorem formatTag_spec (r : Registry) (t : Nat) (ht : t < 16 ^ 6) :
    (∀ n, Enum.CanonicalName (some r.tags) t = (n, true) → Registry.FormatTag r t = n)
    ∧ ((Enum.CanonicalName (some r.tags) t).2 = false →
        Registry.FormatTag r t = String.mk ('0' :: 'x' :: toHexDigits t 6)
        ∧ (toHexDigits t 6).length = 6
        ∧ (∀ c ∈ toHexDigits t 6, isHexDigit c = true)
        ∧ hexToNat (toHexDigits t 6) = t) := by
  constructor
  · intro n hn
    simp [Registry.FormatTag, FormatTagF, hn]
  · intro hf
    refine ⟨?_, length_toHexDigits 6 t, fun c hc => mem_toHexDigits_isHex 6 t c hc,
      hexToNat_toHexDigits 6 t ht⟩
    cases hv : Enum.CanonicalName (some r.tags) t with
    | mk n bb =>
        rw [hv] at hf
        simp only at hf
        subst hf
        simp [Registry.FormatTag, FormatTagF, hv]

/-- C5 witness: a registered tag formats to its canonical name, an
unregistered one to its six hex digits. -/
theorem formatTag_spec_witness :
    Registry.FormatTag (emptyRegistry.RegisterTag 1 "Key Format Type") 1 = "Key Format Type"
    ∧ hexToNat (toHexDigits 4325499 6) = 4325499 :=
  ⟨(formatTag_spec (emptyRegistry.RegisterTag 1 "Key Format Type") 1 (by decide)).1
      "Key Format Type" (by decide),
   (((formatTag_spec emptyRegistry 4325499 (by decide)).2 (by decide)).2).2.2⟩

/-- C1 (amended): `ParseTag(FormatTag(t)) = t` holds for a registered tag
`t` provided its canonical name is not hex-formed and still resolves to
`t` through `Value` (later registrations may shadow it, see the
counterexample); and `ParseTag` of `"0x"` + any six hex digits is the tag
with that numeric value, registered or not. -/
theorem parseTag_formatTag_roundtrip (r : Registry) :
    (∀ t n, Enum.CanonicalName (some r.tags) t = (n, true) →
       hexTail n.toList = none →
       Enum.Value (some r.tags) n = (t, true) →
       Registry.ParseTag r (Registry.FormatTag r t) = Except.ok t)
    ∧ (∀ (s : String) (ds : List Char), s.toList = '0' :: 'x' :: ds →
       ds.length = 6 → ds.all isHexDigit = true →
       Registry.ParseTag r s = Except.ok (hexToNat ds)) := by
  constructor
  · intro t n hcanon hnohex hval
    have hfmt : Registry.FormatTag r t = n := by
      simp [Registry.FormatTag, FormatTagF, hcanon]
    rw [hfmt]
    unfold Registry.ParseTag ParseTagF
    simp only [hnohex, hval]
  · intro s ds hs hlen hhex
    have hs' : hexTail s.toList = some ds := by rw [hs]; rfl
    have hcond : (decide (ds.length = 6) && ds.all isHexDigit) = true := by
      simp [hlen, hhex]
    unfold Registry.ParseTag ParseTagF
    simp only [hs']
    rw [if_pos hcond]

/-- C1 counterexample: register tag 1 and then tag 2 under the same name
`"A"`; tag 1 is still registered (its canonical name is `"A"`), yet
`ParseTag(FormatTag(1))` returns 2, not 1. -/
theorem parseTag_formatTag_roundtrip_cex :
    Enum.CanonicalName
        (some ((emptyRegistry.RegisterTag 1 "A").RegisterTag 2 "A").tags) 1 = ("A", true)
    ∧ Registry.ParseTag ((emptyRegistry.RegisterTag 1 "A").RegisterTag 2 "A")
        (Registry.FormatTag ((emptyRegistry.RegisterTag 1 "A").RegisterTag 2 "A") 1)
      = Except.ok 2 := by
  decide

/-- C1 witness: a well-separated registration round-trips, and a six-digit
hex string parses to its value. -/
theorem parseTag_formatTag_roundtrip_witness :
    Registry.ParseTag (emptyRegistry.RegisterTag 4325377 "Activation Date")
        (Registry.FormatTag (emptyRegistry.RegisterTag 4325377 "Activation Date") 4325377)
      = Except.ok 4325377
    ∧ Registry.ParseTag emptyRegistry "0x42007b"
      = Except.ok (hexToNat ['4', '2', '0', '0', '7', 'b']) :=
  ⟨(parseTag_formatTag_roundtrip (emptyRegistry.RegisterTag 4325377 "Activation Date")).1
      4325377 "Activation Date" (by decide) (by decide) (by decide),
   (parseTag_formatTag_roundtrip emptyRegistry).2 "0x42007b"
      ['4', '2', '0', '0', '7', 'b'] (by decide) (by decide) (by decide)⟩

/-- C3 (amended): immediately after `RegisterValue(v, n)`, `Value` returns
`(v, true)` both for the canonical name `n` and for `NormalizeName(n)`
(an earlier registration under a colliding name is shadowed, see the
counterexample); and a string that is neither form of any registered
name yields `(0, false)`. -/
theorem enumValue_accepts_both_forms (b : Bool) (l : List (Nat × String)) (v : Nat)
    (n : String) (s : String) :
    (Enum.Value (some ((registerAll (emptyWith b) l).RegisterValue v n)) n = (v, true)
      ∧ Enum.Value (some ((registerAll (emptyWith b) l).RegisterValue v n))
          (NormalizeName n) = (v, true))
    ∧ ((∀ p ∈ l, s ≠ p.2 ∧ s ≠ NormalizeName p.2) →
        Enum.Value (some (registerAll (emptyWith b) l)) s = (0, false)) := by
  refine ⟨⟨?_, ?_⟩, ?_⟩
  · by_cases hfix : NormalizeName n = n
    · unfold Enum.Value Enum.RegisterValue
      simp only
      rw [hfix, mapGet_mapPut_self]
    · have hkeys : normKeys (registerAll (emptyWith b) l) :=
        normKeys_registerAll l _ (by intro k w hk; simp [emptyWith, mapGet] at hk)
      have hnone : mapGet (registerAll (emptyWith b) l).nameToValue n = none := by
        cases hmg : mapGet (registerAll (emptyWith b) l).nameToValue n with
        | none => rfl
        | some w => exact absurd (hkeys n w hmg) hfix
      unfold Enum.Value Enum.RegisterValue
      simp only
      rw [mapGet_mapPut_ne _ _ _ _ (fun hne => hfix hne.symm), hnone,
        mapGet_mapPut_self]
  · unfold Enum.Value Enum.RegisterValue
    simp only
    rw [mapGet_mapPut_self]
  · intro hfresh
    rcases fresh_name_lookup l (emptyWith b) s hfresh with ⟨h1, h2⟩
    unfold Enum.Value
    simp only
    rw [h1, h2]
    rfl

/-- C3 counterexample: value 1 is registered under the name `"A"`, then
value 2 is registered under the same name; `Value("A")` now returns
`(2, true)`, not `(1, true)`, although 1 is still a registered value whose
canonical name is `"A"`. -/
theorem enumValue_accepts_both_forms_cex :
    Enum.CanonicalName (some (((emptyWith false).RegisterValue 1 "A").RegisterValue 2 "A")) 1
      = ("A", true)
    ∧ Enum.Value (some (((emptyWith false).RegisterValue 1 "A").RegisterValue 2 "A")) "A"
      = (2, true) := by
  decide

/-- C3 witness: the last registration is found under both name forms, and
an unknown string misses. -/
theorem enumValue_accepts_both_forms_witness :
    Enum.Value (some ((registerAll (emptyWith false) [(1, "Foo Bar")]).RegisterValue
        2 "Baz Qux")) "Baz Qux" = (2, true)
    ∧ Enum.Value (some ((registerAll (emptyWith false) [(1, "Foo Bar")]).RegisterValue
        2 "Baz Qux")) (NormalizeName "Baz Qux") = (2, true)
    ∧ Enum.Value (some (registerAll (emptyWith false) [(1, "Foo Bar")])) "Nope"
      = (0, false) :=
  ⟨(enumValue_accepts_both_forms false [(1, "Foo Bar")] 2 "Baz Qux" "Nope").1.1,
   (enumValue_accepts_both_forms false [(1, "Foo Bar")] 2 "Baz Qux" "Nope").1.2,
   (enumValue_accepts_both_forms false [(1, "Foo Bar")] 2 "Baz Qux" "Nope").2 (by decide)⟩

/-- Decidable well-formedness of the hex form of one enum component. -/
def componentHexOk (c : String) : Bool :=
  match hexTail c.toList with
  | some ds => decide (ds.length = 8) && ds.all isHexDigit
  | none => true

theorem orComponents_error (e : Option Enum) :
    ∀ (cs : List String) (acc : Nat),
    (∀ c ∈ cs, componentHexOk c = true) →
    (∃ c ∈ cs, hexTail c.toList = none ∧ (Enum.Value e c).2 = false) →
    orComponents e acc cs = Except.error KErr.unregisteredEnumName := by
  intro cs
  induction cs with
  | nil =>
      intro acc _ hbad
      simp at hbad
  | cons c cs ih =>
      intro acc hgood hbad
      cases hht : hexTail c.toList with
      | some ds =>
          have hok := hgood c (List.mem_cons_self c cs)
          rw [componentHexOk, hht] at hok
          have hcomp : parseEnumComponent e c = Except.ok (hexToNat ds) := by
            unfold parseEnumComponent
            rw [hht]
            simp only
            rw [if_pos hok]
          unfold orComponents
          rw [hcomp]
          simp only
          apply ih
          · exact fun q hq => hgood q (List.mem_cons_of_mem c hq)
          · rcases hbad with ⟨q, hq, hqn, hqv⟩
            rcases List.mem_cons.mp hq with rfl | hq'
            · rw [hht] at hqn; cases hqn
            · exact ⟨q, hq', hqn, hqv⟩
      | none =>
          cases hv : Enum.Value e c with
          | mk w bb =>
              cases bb with
              | true =>
                  have hcomp : parseEnumComponent e c = Except.ok w := by
                    unfold parseEnumComponent
                    rw [hht]
                    simp only
                    rw [hv]
                  unfold orComponents
                  rw [hcomp]
                  simp only
                  apply ih
                  · exact fun q hq => hgood q (List.mem_cons_of_mem c hq)
                  · rcases hbad with ⟨q, hq, hqn, hqv⟩
                    rcases List.mem_cons.mp hq with rfl | hq'
                    · rw [hv] at hqv; cases hqv
                    · exact ⟨q, hq', hqn, hqv⟩
              | false =>
                  have hcomp : parseEnumComponent e c
                      = Except.error KErr.unregisteredEnumName := by
                    unfold parseEnumComponent
                    rw [hht]
                    simp only
                    rw [hv]
                  unfold orComponents
                  rw [hcomp]

/-- C6: for a tag whose registered map is a bitmask, `ParseEnum` fails with
the unregistered-enum-name error whenever some component of the string is
not a registered canonical or normalized name, unless that component is
given in (well-formed) hex form. -/
theorem parseEnum_unregistered_name (r : Registry) (t : Nat) (e : Enum) (s : String)
    (hreg : Registry.EnumForTag r t = some (some e))
    (hbit : e.bitMask = true)
    (hgoodhex : ∀ c ∈ enumParts s, componentHexOk c = true)
    (hbad : ∃ c ∈ enumParts s, hexTail c.toList = none
        ∧ (Enum.Value (some e) c).2 = false) :
    Registry.ParseEnum r t s = Except.error KErr.unregisteredEnumName := by
  unfold Registry.ParseEnum
  rw [hreg]
  simp only [Option.join]
  unfold ParseEnumF
  rw [if_pos (by simp [Enum.Bitmask, hbit])]
  exact orComponents_error (some e) (enumParts s) 0 hgoodhex hbad

/-- C6 witness: a bitmask with one registered name rejects
`"Foo|Bar"` because `"Bar"` is unregistered and not hex. -/
theorem parseEnum_unregistered_name_witness :
    Registry.ParseEnum
        (emptyRegistry.RegisterEnum 7 (some (registerAll (emptyWith true) [(1, "Foo")])))
        7 "Foo|Bar"
      = Except.error KErr.unregisteredEnumName :=
  parseEnum_unregistered_name
    (emptyRegistry.RegisterEnum 7 (some (registerAll (emptyWith true) [(1, "Foo")])))
    7 (registerAll (emptyWith true) [(1, "Foo")]) "Foo|Bar"
    (by decide) (by decide) (by decide) (by decide)
